import Mathlib

/-!
Verification development for the path-template compiler and matcher of
`lib/route.js` (hapi). The JavaScript source compiles a route template into a
regular expression (`_generateRegex`), an ordered parameter-name list, and a
fingerprint string, and then matches request paths against the compiled
regular expression (`match`, `test`).

The embedding strategy:

* JavaScript regular expressions are modelled by a small `RegExp` AST together
  with a backtracking matcher `mrun` that enumerates, in the engine's
  backtracking preference order (first alternative first, greedy quantifiers),
  every way a regex can match a prefix of the input, threading capture groups.
  An anchored `^...$` pattern matches exactly when some enumerated way
  consumes the whole input; `exec` returns the first such way, as JavaScript
  does.  The regex strings concatenated by `_generateRegex` are mirrored
  fragment by fragment into this AST.
* Strings are `List Char` / `String` (JavaScript strings restricted to the
  code points the claims exercise); `decodeURIComponent` is modelled as a
  fallible function implementing the ECMAScript Decode algorithm (percent
  unescaping followed by strict UTF-8 assembly); a decoded supplementary code
  point is represented as the single corresponding character rather than a
  surrogate pair.
* The plain-object bookkeeping of parameter names (`params[name] = true`
  followed by `Object.keys(params)`) is modelled with an insertion-ordered
  list and the ECMAScript own-property-key ordering (array-index-like keys
  first, in ascending numeric order).
* `match` mutates `request`; it is modelled as a function from a `Request`
  to the returned boolean plus the updated `Request`.
-/

/-! ## Character helpers -/

/-- JavaScript `\w`: `[A-Za-z0-9_]`. -/
def isWordChar (c : Char) : Bool :=
  ('a' ≤ c && c ≤ 'z') || ('A' ≤ c && c ≤ 'Z') || ('0' ≤ c && c ≤ '9') || c = '_'

/-- The literal path characters of `validatePathRegex`:
`[\w\!\$&'\(\)\*\+\,;\=\:@\-\.~]` (the code points 33, 36, 38, 39, 40, 41,
42, 43, 44, 59, 61, 58, 64, 45, 46, 126 beyond `\w`). -/
def isPathLiteralChar (c : Char) : Bool :=
  isWordChar c ||
    [33, 36, 38, 39, 40, 41, 42, 43, 44, 59, 61, 58, 64, 45, 46, 126].contains c.toNat

/-- Hex digits accepted by `%[A-F0-9]{2}` in `validatePathRegex` (upper case only). -/
def isUpperHex (c : Char) : Bool :=
  ('0' ≤ c && c ≤ '9') || ('A' ≤ c && c ≤ 'F')

/-- `[1-9]` in `validatePathRegex`. -/
def isNonZeroDigit (c : Char) : Bool :=
  '1' ≤ c && c ≤ '9'

/-- ASCII lower-casing, as JavaScript `toLowerCase` / regex canonicalisation
act on the ASCII alphabet used by templates and fingerprints. -/
def lowerChar (c : Char) : Char :=
  if 65 ≤ c.toNat ∧ c.toNat ≤ 90 then Char.ofNat (c.toNat + 32) else c

/-- Does input character `x` match pattern character `c`?  Without the `i`
flag this is equality; with it, comparison up to ASCII case. -/
def charEq (ic : Bool) (c x : Char) : Bool :=
  c = x || (ic && lowerChar c = lowerChar x)

/-- Value of a hexadecimal digit, both cases, as the ECMAScript Decode
algorithm accepts them. -/
def hexDigit (c : Char) : Option Nat :=
  if '0' ≤ c ∧ c ≤ '9' then some (c.toNat - 48)
  else if 'A' ≤ c ∧ c ≤ 'F' then some (c.toNat - 55)
  else if 'a' ≤ c ∧ c ≤ 'f' then some (c.toNat - 87)
  else none

/-- Numeric value of a digit string (JavaScript `parseInt(-, 10)` on an
all-digit string). -/
def digitsVal (l : List Char) : Nat :=
  l.foldl (fun a c => a * 10 + (c.toNat - 48)) 0

/-! ## Regular expression AST

Constructors mirror the syntax occurring in the strings `_generateRegex` and
`validatePathRegex` are built from: literal characters (after
`Utils.escapeRegex` every literal character matches itself), the class
`[^\/]` and the other character classes (`cls`), concatenation, alternation
(first alternative preferred), the greedy `?` and `*` quantifiers, and
numbered capturing groups. -/

inductive RegExp where
  | emp : RegExp
  | lit : Char → RegExp
  | cls : (Char → Bool) → RegExp
  | cat : RegExp → RegExp → RegExp
  | alt : RegExp → RegExp → RegExp
  | opt : RegExp → RegExp
  | star : RegExp → RegExp
  | group : Nat → RegExp → RegExp

/-- Capture state: position `i` holds group `i+1` of the JavaScript match
array (`undefined` as `none`). -/
abbrev Caps := List (Option String)

/-- One layer of the backtracking matcher.  `deeper` is invoked to continue a
`star` after an iteration that consumed input (the ECMAScript RepeatMatcher
stops a repetition whose body matched the empty string, hence the length
guard).  The result lists every `(remaining input, captures)` state reachable
by matching a prefix, in the engine's backtracking preference order. -/
def mstep (ic : Bool) (deeper : RegExp → List Char → Caps → List (List Char × Caps)) :
    RegExp → List Char → Caps → List (List Char × Caps)
  | .emp, s, k => [(s, k)]
  | .lit _, [], _ => []
  | .lit c, x :: xs, k => if charEq ic c x then [(xs, k)] else []
  | .cls _, [], _ => []
  | .cls p, x :: xs, k => if p x then [(xs, k)] else []
  | .cat r1 r2, s, k => (mstep ic deeper r1 s k).flatMap fun q => mstep ic deeper r2 q.1 q.2
  | .alt r1 r2, s, k => mstep ic deeper r1 s k ++ mstep ic deeper r2 s k
  | .opt r, s, k => mstep ic deeper r s k ++ [(s, k)]
  | .star r, s, k =>
      ((mstep ic deeper r s k).flatMap fun q =>
        if q.1.length < s.length then deeper (.star r) q.1 q.2 else []) ++ [(s, k)]
  | .group i r, s, k =>
      (mstep ic deeper r s k).map fun q =>
        (q.1, q.2.set i (some (String.mk (s.take (s.length - q.1.length)))))

/-- The backtracking matcher, with fuel bounding the number of `star`
restarts.  Every `star` iteration that restarts consumes at least one input
character, so any fuel greater than the input length is sufficient; all
callers use `length + 1`. -/
def mrun (ic : Bool) : Nat → RegExp → List Char → Caps → List (List Char × Caps)
  | 0, _, _, _ => []
  | fuel + 1, r, s, k => mstep ic (mrun ic fuel) r s k

/-- Does the anchored pattern `^r$` match the whole input? -/
def reAccept (ic : Bool) (r : RegExp) (l : List Char) : Bool :=
  (mrun ic (l.length + 1) r l []).any fun q => q.1.isEmpty

/-! ## Language semantics

`RMatch ic r u` holds when the regex `r` can match exactly the string `u`,
ignoring captures and preference.  This is the standard language reading of
the constructors; the `star` case takes nonempty pieces, which describes the
same language as the unrestricted closure. -/

inductive RMatch (ic : Bool) : RegExp → List Char → Prop where
  | emp : RMatch ic .emp []
  | lit {c x} : charEq ic c x = true → RMatch ic (.lit c) [x]
  | cls {p x} : p x = true → RMatch ic (.cls p) [x]
  | cat {r1 r2 u v} : RMatch ic r1 u → RMatch ic r2 v → RMatch ic (.cat r1 r2) (u ++ v)
  | altL {r1 r2 u} : RMatch ic r1 u → RMatch ic (.alt r1 r2) u
  | altR {r1 r2 u} : RMatch ic r2 u → RMatch ic (.alt r1 r2) u
  | optNone {r} : RMatch ic (.opt r) []
  | optSome {r u} : RMatch ic r u → RMatch ic (.opt r) u
  | starNil {r} : RMatch ic (.star r) []
  | starCons {r u v} : u ≠ [] → RMatch ic r u → RMatch ic (.star r) v →
      RMatch ic (.star r) (u ++ v)
  | group {i r u} : RMatch ic r u → RMatch ic (.group i r) u

/-! ## decodeURIComponent

ECMAScript `Decode` with an empty reserved set, in two passes: percent
unescaping (`%` must be followed by two hex digits), then strict UTF-8
assembly of the escaped bytes (continuation bytes must themselves come from
escapes; overlong encodings, surrogate code points, values above 0x10FFFF and
leading bytes 0x80-0xC1 / 0xF8-0xFF are rejected).  Both passes are total
scans returning `none` exactly when the ECMAScript algorithm throws
`URIError`. -/

def unescape : List Char → Option (List (Sum Char Nat))
  | [] => some []
  | '%' :: h1 :: h2 :: rest =>
    match hexDigit h1, hexDigit h2 with
    | some a, some b => (unescape rest).map fun l => Sum.inr (16 * a + b) :: l
    | _, _ => none
  | '%' :: _ => none
  | c :: rest => (unescape rest).map fun l => Sum.inl c :: l

/-- Is `b` a UTF-8 continuation byte (`10xxxxxx`)? -/
def isCont (b : Nat) : Bool := 128 ≤ b && b < 192

def utf8Asm : List (Sum Char Nat) → Option (List Char)
  | [] => some []
  | Sum.inl c :: rest => (utf8Asm rest).map fun l => c :: l
  | Sum.inr b :: rest =>
    if b < 128 then (utf8Asm rest).map fun l => Char.ofNat b :: l
    else if b < 194 then none
    else if b < 224 then
      match rest with
      | Sum.inr b2 :: rest2 =>
        if isCont b2 then
          (utf8Asm rest2).map fun l => Char.ofNat ((b - 192) * 64 + (b2 - 128)) :: l
        else none
      | _ => none
    else if b < 240 then
      match rest with
      | Sum.inr b2 :: Sum.inr b3 :: rest3 =>
        if isCont b2 && isCont b3 then
          let v := (b - 224) * 4096 + (b2 - 128) * 64 + (b3 - 128)
          if v < 2048 then none
          else if 55296 ≤ v ∧ v ≤ 57343 then none
          else (utf8Asm rest3).map fun l => Char.ofNat v :: l
        else none
      | _ => none
    else if b < 245 then
      match rest with
      | Sum.inr b2 :: Sum.inr b3 :: Sum.inr b4 :: rest4 =>
        if isCont b2 && isCont b3 && isCont b4 then
          let v := (b - 240) * 262144 + (b2 - 128) * 4096 + (b3 - 128) * 64 + (b4 - 128)
          if v < 65536 then none
          else if 1114111 < v then none
          else (utf8Asm rest4).map fun l => Char.ofNat v :: l
        else none
      | _ => none
    else none

/-- The model of JavaScript `decodeURIComponent`, returning `none` where the
original throws. -/
def decodeURIComponentF (s : String) : Option String :=
  (unescape s.data).bind fun l => (utf8Asm l).map String.mk

/-! ## Splitting, parameter-segment parsing, Object.keys -/

/-- JavaScript `path.split('/')`. -/
def splitSlash : List Char → List (List Char)
  | [] => [[]]
  | '/' :: rest => [] :: splitSlash rest
  | c :: rest =>
    match splitSlash rest with
    | [] => [[c]]
    | seg :: segs => (c :: seg) :: segs

/-- The pieces of a parameter segment, as captured by
`paramRegex = /^\{(\w+)(?:(\*)(\d+)?)?(\?)?\}$/`:
`name` (group 1), `isMulti` (group 2), `count` (group 3, absent as `none`),
`isOptional` (group 4). -/
structure ParamPieces where
  name : List Char
  isMulti : Bool
  count : Option Nat
  isOptional : Bool
deriving DecidableEq

/-- `segment.match(paramRegex)`.  Because no character of `*`, `?`, `}` is a
word character or digit, the greedy `\w+` / `(\d+)?` of the anchored regex
are forced to the maximal runs this scanner takes, so the scanner accepts
and decomposes exactly as the regex does. -/
def paramMatch : List Char → Option ParamPieces
  | '\x7b' :: rest =>
    let nm := rest.takeWhile isWordChar
    let r1 := rest.dropWhile isWordChar
    if nm.isEmpty then none
    else
      match r1 with
      | '*' :: r2 =>
        let ds := r2.takeWhile Char.isDigit
        let r3 := r2.dropWhile Char.isDigit
        let mc : Option Nat := if ds.isEmpty then none else some (digitsVal ds)
        match r3 with
        | ['\x7d'] => some ⟨nm, true, mc, false⟩
        | ['?', '\x7d'] => some ⟨nm, true, mc, true⟩
        | _ => none
      | ['\x7d'] => some ⟨nm, false, none, false⟩
      | ['?', '\x7d'] => some ⟨nm, false, none, true⟩
      | _ => none
  | _ => none

/-- Is the string an ECMAScript array-index property key: the canonical
decimal form of an integer below 2^32 - 1?  (No leading zero except "0"
itself; `Object.keys` lists such keys first, in ascending numeric order.) -/
def isArrayIndex (s : String) : Bool :=
  match s.data with
  | [] => false
  | [c] => c.isDigit
  | c :: rest => c.isDigit && c != '0' && rest.all Char.isDigit &&
      digitsVal (c :: rest) < 4294967295

def insertNumeric (x : String) : List String → List String
  | [] => [x]
  | y :: ys =>
    if digitsVal x.data ≤ digitsVal y.data then x :: y :: ys else y :: insertNumeric x ys

def sortNumeric (l : List String) : List String := l.foldr insertNumeric []

/-- ECMAScript `Object.keys` on a plain object whose keys were inserted in
the order given: array-index keys first in ascending numeric order, then the
remaining keys in insertion order. -/
def objectKeys (l : List String) : List String :=
  sortNumeric (l.filter isArrayIndex) ++ l.filter fun s => !isArrayIndex s

/-! ## The compiler: `_generateRegex` -/

/-- `this.server.settings.router`. -/
structure RouterSettings where
  isCaseSensitive : Bool
  isTrailingSlashSensitive : Bool
deriving DecidableEq

/-- `\/` -/
def slashRE : RegExp := .lit '/'

/-- `[^\/]` -/
def notSlashRE : RegExp := .cls fun c => c != '/'

/-- `(?:[^\/]+)` (a greedy `+` is its body followed by the greedy closure). -/
def notSlashPlus : RegExp := .cat notSlashRE (.star notSlashRE)

/-- A literal run after `Utils.escapeRegex`: every character matches itself. -/
def reStr : List Char → RegExp
  | [] => .emp
  | c :: rest => .cat (.lit c) (reStr rest)

/-- The `{n}` quantifier on a non-capturing group: exactly `n` copies. -/
def repRE : Nat → RegExp → RegExp
  | 0, _ => .emp
  | n + 1, r => .cat r (repRE n r)

/-- `segmentRX` of `_generateRegex` for a parameter segment: `\/` followed by
the capturing group numbered `gi` — `([^\/]+)` for a single parameter,
`((?:[^\/]+)(?:\/(?:[^\/]+)){n-1})` for a fixed multi-count `n` (truthy), and
`((?:[^\/]+)(?:\/(?:[^\/]+))*)` for an unbounded multi. -/
def paramSegmentRX (isMulti : Bool) (mcVal : Nat) (gi : Nat) : RegExp :=
  if isMulti then
    if mcVal ≠ 0 then
      .cat slashRE (.group gi (.cat notSlashPlus (repRE (mcVal - 1) (.cat slashRE notSlashPlus))))
    else
      .cat slashRE (.group gi (.cat notSlashPlus (.star (.cat slashRE notSlashPlus))))
  else
    .cat slashRE (.group gi notSlashPlus)

/-- `/?` repeated `n` times, for the fingerprint of a fixed multi parameter. -/
def fpRep : Nat → List Char
  | 0 => []
  | n + 1 => '/' :: '?' :: fpRep n

/-- Accumulator of the `_generateRegex` loop: parameter names in insertion
order (the keys of the `params` object), the regex fragments appended to
`pathRX` so far, and the fingerprint characters. -/
structure GenAcc where
  names : List String
  frags : List RegExp
  fp : List Char

/-- One iteration of the `_generateRegex` segment loop.  `tso` is
`trailingSlashOptional = !isTrailingSlashSensitive`.  Returns `none` when
`Utils.assert(!params[name])` fires (duplicate parameter name). -/
def genSegment (tso : Bool) (acc : GenAcc) (seg : List Char) : Option GenAcc :=
  match paramMatch seg with
  | some p =>
    let name := String.mk p.name
    if acc.names.contains name then none
    else
      let mcVal : Nat := p.count.getD 0
      let segRX := paramSegmentRX p.isMulti mcVal acc.names.length
      let frag :=
        if p.isOptional || (p.isMulti && mcVal = 0) then
          if tso then .opt (.alt slashRE segRX) else .alt slashRE segRX
        else segRX
      let fpAdd : List Char :=
        if p.isMulti then
          if mcVal ≠ 0 then fpRep mcVal else ['/', '?', '*']
        else ['/', '?']
      some ⟨acc.names ++ [name], acc.frags ++ [frag], acc.fp ++ fpAdd⟩
  | none =>
    if seg.isEmpty then
      some ⟨acc.names, acc.frags ++ [if tso then .opt slashRE else slashRE], acc.fp ++ ['/']⟩
    else
      some ⟨acc.names, acc.frags ++ [.cat slashRE (reStr seg)], acc.fp ++ '/' :: seg⟩

def genSegs (tso : Bool) : GenAcc → List (List Char) → Option GenAcc
  | acc, [] => some acc
  | acc, seg :: rest =>
    match genSegment tso acc seg with
    | some acc2 => genSegs tso acc2 rest
    | none => none

/-- The compiled artifacts `_generateRegex` stores on the route:
`this.regexp` (as the fragment list of `pathRX`, to be matched anchored, and
the `i` flag), `this.params = Object.keys(params)` and `this.fingerprint`. -/
structure CompiledRoute where
  frags : List RegExp
  ignoreCase : Bool
  params : List String
  fingerprint : String

/-- `_generateRegex`: split the template on `/`, skip the first (empty)
segment, process each segment, then assemble regex, fingerprint and
parameter list according to `isCaseSensitive`. -/
def generateRegex (path : String) (settings : RouterSettings) : Option CompiledRoute :=
  let tso := !settings.isTrailingSlashSensitive
  match genSegs tso ⟨[], [], []⟩ ((splitSlash path.data).drop 1) with
  | none => none
  | some acc =>
    if settings.isCaseSensitive then
      some ⟨acc.frags, false, objectKeys acc.names, String.mk acc.fp⟩
    else
      some ⟨acc.frags, true, objectKeys acc.names, String.mk (acc.fp.map lowerChar)⟩

/-- The route regex `new RegExp('^' + pathRX + '$')`: the concatenation of
the fragments, matched against the whole input. -/
def compiledRE (c : CompiledRoute) : RegExp :=
  c.frags.foldr .cat .emp

/-- `this.regexp.exec(path)`: the first full match in backtracking order,
giving the capture array (positions 1..n of the JavaScript match array). -/
def routeExec (c : CompiledRoute) (path : String) : Option Caps :=
  (((mrun c.ignoreCase (path.data.length + 1) (compiledRE c) path.data
      (List.replicate c.params.length none)).filter fun q => q.1.isEmpty).head?).map
    fun q => q.2

/-- `Route.prototype.test`. -/
def routeTest (c : CompiledRoute) (path : String) : Bool :=
  (routeExec c path).isSome

/-- The request state `match` reads and mutates: `request.path`,
`request.params` (an insertion-ordered name/value mapping, a value being
`none` when the property is set to `undefined`) and `request._paramsArray`.
`none` for the two latter fields means the property has not been set. -/
structure Request where
  path : String
  params : Option (List (String × Option String))
  paramsArray : Option (List (Option String))
deriving DecidableEq

/-- The capture loop of `match`: walk the match array positions with their
aligned keys from `this.params`; a missing key (`if (key)` false) skips the
position; an `undefined` capture is stored as-is; a string capture is
percent-decoded, a decode failure returning `false` immediately with the
entries written so far.  Returns the final flag and the accumulated
`request.params` / `request._paramsArray` contents. -/
def matchLoop : List String → Caps → List (String × Option String) → List (Option String) →
    Bool × List (String × Option String) × List (Option String)
  | _, [], prms, arr => (true, prms, arr)
  | [], _ :: caps, prms, arr => matchLoop [] caps prms arr
  | key :: krest, cap :: caps, prms, arr =>
    match cap with
    | none => matchLoop krest caps (prms ++ [(key, none)]) (arr ++ [none])
    | some s =>
      match decodeURIComponentF s with
      | none => (false, prms, arr)
      | some d => matchLoop krest caps (prms ++ [(key, some d)]) (arr ++ [some d])

/-- `Route.prototype.match`: returns the boolean result and the updated
request.  On a structural non-match the request is untouched; otherwise
`request.params` / `request._paramsArray` are initialised empty and filled by
the capture loop (whose partial contents remain on a decode failure). -/
def routeMatch (c : CompiledRoute) (req : Request) : Bool × Request :=
  match routeExec c req.path with
  | none => (false, req)
  | some caps =>
    if c.params.length > 0 then
      let r := matchLoop c.params caps [] []
      (r.1, ⟨req.path, some r.2.1, some r.2.2⟩)
    else
      (true, ⟨req.path, some [], some []⟩)

/-! ## The validator: `validatePathRegex` and `validatePathEncodedRegex`

`validatePathRegex` is
`(^\/$)|(^(\/(([\w\!\$&'\(\)\*\+\,;\=\:@\-\.~]|%[A-F0-9]{2})+|(\{\w+(\*[1-9]\d*)?\})))*(\/(\{\w+((\*([1-9]\d*)?)|(\?))?\})?)?$)`.
It is mirrored below sub-expression by sub-expression; its capturing groups
only serve grouping, so they are modelled without `group` nodes (the
assertion only tests whether `path.match(...)` is truthy).  Both alternatives
are anchored on both sides, so `String.prototype.match` succeeds exactly
when the whole path is accepted. -/

/-- `%[A-F0-9]{2}` -/
def pctUpperRE : RegExp := .cat (.lit '%') (.cat (.cls isUpperHex) (.cls isUpperHex))

/-- `[\w\!\$&'\(\)\*\+\,;\=\:@\-\.~]|%[A-F0-9]{2}` -/
def litCharRE : RegExp := .alt (.cls isPathLiteralChar) pctUpperRE

/-- `(...)+` over `litCharRE`. -/
def litRunRE : RegExp := .cat litCharRE (.star litCharRE)

/-- `\w+` -/
def wordPlusRE : RegExp := .cat (.cls isWordChar) (.star (.cls isWordChar))

/-- `\*[1-9]\d*` -/
def countRE : RegExp := .cat (.lit '*') (.cat (.cls isNonZeroDigit) (.star (.cls Char.isDigit)))

/-- `\{\w+(\*[1-9]\d*)?\}` — the parameter form allowed in a non-final segment. -/
def midParamRE : RegExp :=
  .cat (.lit '\x7b') (.cat wordPlusRE (.cat (.opt countRE) (.lit '\x7d')))

/-- `\*([1-9]\d*)?` -/
def countOptRE : RegExp := .cat (.lit '*') (.opt (.cat (.cls isNonZeroDigit) (.star (.cls Char.isDigit))))

/-- `\{\w+((\*([1-9]\d*)?)|(\?))?\}` — the parameter form allowed in the
final segment (adds the bare `*` and the `?` decorators). -/
def finalParamRE : RegExp :=
  .cat (.lit '\x7b') (.cat wordPlusRE (.cat (.opt (.alt countOptRE (.lit '?'))) (.lit '\x7d')))

/-- `\/(([\w...]|%[A-F0-9]{2})+|(\{\w+(\*[1-9]\d*)?\}))` — one non-final segment. -/
def midSegRE : RegExp := .cat (.lit '/') (.alt litRunRE midParamRE)

/-- `(\/(\{\w+((\*([1-9]\d*)?)|(\?))?\})?)?` — the optional final part. -/
def tailRE : RegExp := .opt (.cat (.lit '/') (.opt finalParamRE))

/-- The whole `validatePathRegex`. -/
def validatePathRE : RegExp :=
  .alt (.lit '/') (.cat (.star midSegRE) tailRE)

/-- `settings.path.match(internals.Route.validatePathRegex)` is truthy. -/
def validPath (s : String) : Bool :=
  reAccept false validatePathRE s.data

/-- One hit of `validatePathEncodedRegex =
/%(?:2[146-9A-E]|3[\dABD]|4[\dA-F]|5[\dAF]|6[1-9A-F]|7[\dAE])/` starting at
`%` followed by the two given characters. -/
def isEncodedHit (a b : Char) : Bool :=
  match a with
  | '2' => ['1', '4', '6', '7', '8', '9', 'A', 'B', 'C', 'D', 'E'].contains b
  | '3' => b.isDigit || ['A', 'B', 'D'].contains b
  | '4' => b.isDigit || ('A' ≤ b && b ≤ 'F')
  | '5' => b.isDigit || ['A', 'F'].contains b
  | '6' => isNonZeroDigit b || ('A' ≤ b && b ≤ 'F')
  | '7' => b.isDigit || ['A', 'E'].contains b
  | _ => false

/-- `path.match(validatePathEncodedRegex) !== null`: some position starts a
hit of the (unanchored) regex. -/
def hasEncodedReserved : List Char → Bool
  | '%' :: a :: b :: rest => isEncodedHit a b || hasEncodedReserved (a :: b :: rest)
  | _ :: rest => hasEncodedReserved rest
  | [] => false

/-- The path assertions of the `Route` constructor: `settings.path` truthy,
it matches `validatePathRegex`, and it has no hit of
`validatePathEncodedRegex`. -/
def routePathOk (s : String) : Bool :=
  s ≠ "" && validPath s && !hasEncodedReserved s.data

/-! ## Engine lemmas

`mrun` at positive fuel satisfies the expected one-step equations (all
definitional), every produced state is reached by consuming a prefix in the
language (`mrun_sound`), and every language split is produced when the fuel
exceeds the input length (`mrun_complete`).  Together they identify anchored
acceptance with the language semantics. -/

theorem mrun_emp (ic : Bool) (fuel : Nat) (s : List Char) (k : Caps) :
    mrun ic (fuel + 1) .emp s k = [(s, k)] := rfl

theorem mrun_lit_nil (ic : Bool) (fuel : Nat) (c : Char) (k : Caps) :
    mrun ic (fuel + 1) (.lit c) [] k = [] := rfl

theorem mrun_lit_cons (ic : Bool) (fuel : Nat) (c x : Char) (xs : List Char) (k : Caps) :
    mrun ic (fuel + 1) (.lit c) (x :: xs) k = if charEq ic c x then [(xs, k)] else [] := rfl

theorem mrun_cls_nil (ic : Bool) (fuel : Nat) (p : Char → Bool) (k : Caps) :
    mrun ic (fuel + 1) (.cls p) [] k = [] := rfl

theorem mrun_cls_cons (ic : Bool) (fuel : Nat) (p : Char → Bool) (x : Char) (xs : List Char)
    (k : Caps) : mrun ic (fuel + 1) (.cls p) (x :: xs) k = if p x then [(xs, k)] else [] := rfl

theorem mrun_cat (ic : Bool) (fuel : Nat) (r1 r2 : RegExp) (s : List Char) (k : Caps) :
    mrun ic (fuel + 1) (.cat r1 r2) s k =
      (mrun ic (fuel + 1) r1 s k).flatMap fun q => mrun ic (fuel + 1) r2 q.1 q.2 := rfl

theorem mrun_alt (ic : Bool) (fuel : Nat) (r1 r2 : RegExp) (s : List Char) (k : Caps) :
    mrun ic (fuel + 1) (.alt r1 r2) s k =
      mrun ic (fuel + 1) r1 s k ++ mrun ic (fuel + 1) r2 s k := rfl

theorem mrun_opt (ic : Bool) (fuel : Nat) (r : RegExp) (s : List Char) (k : Caps) :
    mrun ic (fuel + 1) (.opt r) s k = mrun ic (fuel + 1) r s k ++ [(s, k)] := rfl

theorem mrun_star (ic : Bool) (fuel : Nat) (r : RegExp) (s : List Char) (k : Caps) :
    mrun ic (fuel + 1) (.star r) s k =
      ((mrun ic (fuel + 1) r s k).flatMap fun q =>
        if q.1.length < s.length then mrun ic fuel (.star r) q.1 q.2 else []) ++ [(s, k)] := rfl

theorem mrun_group (ic : Bool) (fuel : Nat) (i : Nat) (r : RegExp) (s : List Char) (k : Caps) :
    mrun ic (fuel + 1) (.group i r) s k =
      (mrun ic (fuel + 1) r s k).map fun q =>
        (q.1, q.2.set i (some (String.mk (s.take (s.length - q.1.length))))) := rfl

/-- Soundness of the matcher: any reached state consumed a prefix in the
language of the regex. -/
theorem mrun_sound (ic : Bool) : ∀ (fuel : Nat) (r : RegExp) (s : List Char) (k : Caps) q,
    q ∈ mrun ic fuel r s k → ∃ u, s = u ++ q.1 ∧ RMatch ic r u := by
  intro fuel
  induction fuel with
  | zero => intro r s k q h; simp [mrun] at h
  | succ fuel ihF =>
    intro r
    induction r with
    | emp =>
      intro s k q h
      rw [mrun_emp] at h
      simp at h
      exact ⟨[], by simp [h], RMatch.emp⟩
    | lit c =>
      intro s k q h
      match s with
      | [] => rw [mrun_lit_nil] at h; simp at h
      | x :: xs =>
        rw [mrun_lit_cons] at h
        by_cases hc : charEq ic c x = true
        · rw [if_pos hc] at h
          simp at h
          exact ⟨[x], by simp [h], RMatch.lit hc⟩
        · rw [if_neg hc] at h; simp at h
    | cls p =>
      intro s k q h
      match s with
      | [] => rw [mrun_cls_nil] at h; simp at h
      | x :: xs =>
        rw [mrun_cls_cons] at h
        by_cases hc : p x = true
        · rw [if_pos hc] at h
          simp at h
          exact ⟨[x], by simp [h], RMatch.cls hc⟩
        · rw [if_neg hc] at h; simp at h
    | cat r1 r2 ih1 ih2 =>
      intro s k q h
      rw [mrun_cat] at h
      rcases List.mem_flatMap.mp h with ⟨q1, hq1, hq⟩
      rcases ih1 s k q1 hq1 with ⟨u1, hs1, hm1⟩
      rcases ih2 q1.1 q1.2 q hq with ⟨u2, hs2, hm2⟩
      exact ⟨u1 ++ u2, by rw [hs1, hs2, List.append_assoc], RMatch.cat hm1 hm2⟩
    | alt r1 r2 ih1 ih2 =>
      intro s k q h
      rw [mrun_alt] at h
      rcases List.mem_append.mp h with h1 | h2
      · rcases ih1 s k q h1 with ⟨u, hs, hm⟩
        exact ⟨u, hs, RMatch.altL hm⟩
      · rcases ih2 s k q h2 with ⟨u, hs, hm⟩
        exact ⟨u, hs, RMatch.altR hm⟩
    | opt r ih =>
      intro s k q h
      rw [mrun_opt] at h
      rcases List.mem_append.mp h with h1 | h2
      · rcases ih s k q h1 with ⟨u, hs, hm⟩
        exact ⟨u, hs, RMatch.optSome hm⟩
      · simp at h2
        exact ⟨[], by simp [h2], RMatch.optNone⟩
    | star r ih =>
      intro s k q h
      rw [mrun_star] at h
      rcases List.mem_append.mp h with h1 | h2
      · rcases List.mem_flatMap.mp h1 with ⟨q1, hq1, hq⟩
        by_cases hl : q1.1.length < s.length
        · rw [if_pos hl] at hq
          rcases ih s k q1 hq1 with ⟨u1, hs1, hm1⟩
          rcases ihF (.star r) q1.1 q1.2 q hq with ⟨u2, hs2, hm2⟩
          have hu1 : u1 ≠ [] := by
            intro hnil
            rw [hnil] at hs1
            simp at hs1
            rw [hs1] at hl
            omega
          exact ⟨u1 ++ u2, by rw [hs1, hs2, List.append_assoc], RMatch.starCons hu1 hm1 hm2⟩
        · rw [if_neg hl] at hq; simp at hq
      · simp at h2
        exact ⟨[], by simp [h2], RMatch.starNil⟩
    | group i r ih =>
      intro s k q h
      rw [mrun_group] at h
      rcases List.mem_map.mp h with ⟨q1, hq1, hq⟩
      rcases ih s k q1 hq1 with ⟨u, hs, hm⟩
      exact ⟨u, by rw [← hq]; exact hs, RMatch.group hm⟩

/-- Completeness of the matcher: any language split is produced, for any
fuel exceeding the input length. -/
theorem mrun_complete (ic : Bool) {r : RegExp} {u : List Char} (h : RMatch ic r u) :
    ∀ (t : List Char) (k : Caps) (fuel : Nat), u.length + t.length < fuel →
      ∃ k2, (t, k2) ∈ mrun ic fuel r (u ++ t) k := by
  induction h with
  | emp =>
    intro t k fuel hf
    match fuel, hf with
    | fuel + 1, _ => exact ⟨k, by rw [mrun_emp]; simp⟩
  | @lit c x hc =>
    intro t k fuel hf
    match fuel, hf with
    | fuel + 1, _ =>
      refine ⟨k, ?_⟩
      rw [List.cons_append, List.nil_append, mrun_lit_cons, if_pos hc]
      simp
  | @cls p x hc =>
    intro t k fuel hf
    match fuel, hf with
    | fuel + 1, _ =>
      refine ⟨k, ?_⟩
      rw [List.cons_append, List.nil_append, mrun_cls_cons, if_pos hc]
      simp
  | @cat r1 r2 u1 u2 h1 h2 ih1 ih2 =>
    intro t k fuel hf
    match fuel, hf with
    | fuel + 1, hf =>
      have hl : (u1 ++ u2).length = u1.length + u2.length := List.length_append u1 u2
      rcases ih1 (u2 ++ t) k (fuel + 1) (by rw [List.length_append]; omega) with ⟨k1, hk1⟩
      rcases ih2 t k1 (fuel + 1) (by omega) with ⟨k2, hk2⟩
      refine ⟨k2, ?_⟩
      rw [mrun_cat]
      refine List.mem_flatMap.mpr ⟨(u2 ++ t, k1), ?_, hk2⟩
      rw [← List.append_assoc] at hk1
      exact hk1
  | @altL r1 r2 u1 h1 ih1 =>
    intro t k fuel hf
    match fuel, hf with
    | fuel + 1, hf =>
      rcases ih1 t k (fuel + 1) hf with ⟨k2, hk⟩
      exact ⟨k2, by rw [mrun_alt]; exact List.mem_append.mpr (Or.inl hk)⟩
  | @altR r1 r2 u1 h1 ih1 =>
    intro t k fuel hf
    match fuel, hf with
    | fuel + 1, hf =>
      rcases ih1 t k (fuel + 1) hf with ⟨k2, hk⟩
      exact ⟨k2, by rw [mrun_alt]; exact List.mem_append.mpr (Or.inr hk)⟩
  | @optNone r =>
    intro t k fuel hf
    match fuel, hf with
    | fuel + 1, _ => exact ⟨k, by rw [List.nil_append, mrun_opt]; simp⟩
  | @optSome r u1 h1 ih1 =>
    intro t k fuel hf
    match fuel, hf with
    | fuel + 1, hf =>
      rcases ih1 t k (fuel + 1) hf with ⟨k2, hk⟩
      exact ⟨k2, by rw [mrun_opt]; exact List.mem_append.mpr (Or.inl hk)⟩
  | @starNil r =>
    intro t k fuel hf
    match fuel, hf with
    | fuel + 1, _ => exact ⟨k, by rw [List.nil_append, mrun_star]; simp⟩
  | @starCons r u1 u2 hne h1 h2 ih1 ih2 =>
    intro t k fuel hf
    match fuel, hf with
    | fuel + 1, hf =>
      have hu1 : 1 ≤ u1.length := by
        cases u1 with
        | nil => exact absurd rfl hne
        | cons a l => simp
      have hlen : (u1 ++ u2).length = u1.length + u2.length := List.length_append u1 u2
      rcases ih1 (u2 ++ t) k (fuel + 1) (by rw [List.length_append]; omega) with ⟨k1, hk1⟩
      rcases ih2 t k1 fuel (by omega) with ⟨k2, hk2⟩
      refine ⟨k2, ?_⟩
      rw [mrun_star]
      refine List.mem_append.mpr (Or.inl ?_)
      refine List.mem_flatMap.mpr ⟨(u2 ++ t, k1), ?_, ?_⟩
      · rw [← List.append_assoc] at hk1
        exact hk1
      · have hcond : (u2 ++ t).length < ((u1 ++ u2) ++ t).length := by
          simp
          omega
        rw [if_pos hcond]
        exact hk2
  | @group i r u1 h1 ih1 =>
    intro t k fuel hf
    match fuel, hf with
    | fuel + 1, hf =>
      rcases ih1 t k (fuel + 1) hf with ⟨k2, hk⟩
      refine ⟨k2.set i (some (String.mk ((u1 ++ t).take ((u1 ++ t).length - t.length)))), ?_⟩
      rw [mrun_group]
      exact List.mem_map.mpr ⟨(t, k2), hk, rfl⟩

/-- Anchored acceptance coincides with the language semantics, for any
initial capture state. -/
theorem mrun_any_iff (ic : Bool) (r : RegExp) (l : List Char) (k : Caps) :
    ((mrun ic (l.length + 1) r l k).any fun q => q.1.isEmpty) = true ↔ RMatch ic r l := by
  constructor
  · intro h
    rcases List.any_eq_true.mp h with ⟨q, hq, he⟩
    rcases mrun_sound ic (l.length + 1) r l k q hq with ⟨u, hs, hm⟩
    have : q.1 = [] := by
      cases hq1 : q.1 with
      | nil => rfl
      | cons a b => rw [hq1] at he; simp at he
    rw [this, List.append_nil] at hs
    rw [hs]
    exact hm
  · intro h
    rcases mrun_complete ic h [] k (l.length + 1) (by simp) with ⟨k2, hk⟩
    rw [List.append_nil] at hk
    exact List.any_eq_true.mpr ⟨([], k2), hk, rfl⟩

theorem reAccept_iff (ic : Bool) (r : RegExp) (l : List Char) :
    reAccept ic r l = true ↔ RMatch ic r l :=
  mrun_any_iff ic r l []

theorem filter_head_isSome {α : Type} (p : α → Bool) :
    ∀ l : List α, ((l.filter p).head?).isSome = l.any p := by
  intro l
  induction l with
  | nil => rfl
  | cons a l ih =>
    by_cases h : p a = true
    · simp [List.filter_cons, List.any_cons, h]
    · simp only [List.filter_cons, List.any_cons]
      rw [if_neg (by simp [h]), ih]
      simp [h]

/-- `test` succeeds exactly on the language of the compiled pattern. -/
theorem routeTest_iff (c : CompiledRoute) (p : String) :
    routeTest c p = true ↔ RMatch c.ignoreCase (compiledRE c) p.data := by
  unfold routeTest routeExec
  rw [show ∀ {a b : Type} (f : a → b) (o : Option a), (Option.map f o).isSome = o.isSome
    from fun f o => by cases o <;> rfl]
  rw [filter_head_isSome]
  exact mrun_any_iff c.ignoreCase (compiledRE c) p.data (List.replicate c.params.length none)

/-! ## Language lemmas for the fragment shapes `_generateRegex` emits -/

theorem toNat_ofNat_valid {n : Nat} (h : n.isValidChar) : (Char.ofNat n).toNat = n := by
  unfold Char.ofNat
  split
  · rfl
  · exact absurd h (by assumption)

/-- Lower-casing maps nothing to `/` except `/` itself. -/
theorem lowerChar_eq_slash {x : Char} (h : lowerChar x = '/') : x = '/' := by
  unfold lowerChar at h
  split at h
  · exfalso
    have hv : (x.toNat + 32).isValidChar := by
      left
      omega
    have h47 : (Char.ofNat (x.toNat + 32)).toNat = '/'.toNat := by rw [h]
    rw [toNat_ofNat_valid hv] at h47
    have : '/'.toNat = 47 := rfl
    omega
  · exact h

/-- `\/` matches exactly the character `/`, with or without the `i` flag. -/
theorem charEq_slash (ic : Bool) (x : Char) : charEq ic '/' x = true ↔ x = '/' := by
  constructor
  · intro h
    unfold charEq at h
    rcases Bool.or_eq_true_iff.mp h with h1 | h2
    · exact (decide_eq_true_iff.mp h1).symm
    · rcases Bool.and_eq_true_iff.mp h2 with ⟨_, h3⟩
      have := decide_eq_true_iff.mp h3
      exact lowerChar_eq_slash ((by rfl : lowerChar '/' = '/') ▸ this.symm)
  · intro h
    subst h
    simp [charEq]

/-- Inversion for `\/`. -/
theorem slash_lang (ic : Bool) (u : List Char) :
    RMatch ic slashRE u ↔ u = ['/'] := by
  constructor
  · intro h
    cases h with
    | lit hc => rw [(charEq_slash ic _).mp hc]
  · intro h
    subst h
    exact RMatch.lit ((charEq_slash ic '/').mpr rfl)

/-- The language of the closure of a character class. -/
theorem star_cls_lang (ic : Bool) (p : Char → Bool) (u : List Char) :
    RMatch ic (.star (.cls p)) u ↔ ∀ c ∈ u, p c = true := by
  constructor
  · intro h
    have key : ∀ (r0 : RegExp) (v : List Char), RMatch ic r0 v → r0 = .star (.cls p) →
        ∀ c ∈ v, p c = true := by
      intro r0 v hm
      induction hm with
      | starNil => intro _ c hc; simp at hc
      | starCons hne h1 h2 ih1 ih2 =>
        intro he c hc
        injection he with he2
        subst he2
        cases h1 with
        | cls hp =>
          rcases List.mem_append.mp hc with h | h
          · simp at h
            rw [h]
            exact hp
          · exact ih2 rfl c h
      | emp => intro he; exact absurd he (by simp)
      | lit hc => intro he; exact absurd he (by simp)
      | cls hc => intro he; exact absurd he (by simp)
      | cat h1 h2 ih1 ih2 => intro he; exact absurd he (by simp)
      | altL h1 ih1 => intro he; exact absurd he (by simp)
      | altR h1 ih1 => intro he; exact absurd he (by simp)
      | optNone => intro he; exact absurd he (by simp)
      | optSome h1 ih1 => intro he; exact absurd he (by simp)
      | group h1 ih1 => intro he; exact absurd he (by simp)
    exact key _ u h rfl
  · intro h
    induction u with
    | nil => exact RMatch.starNil
    | cons c rest ih =>
      rw [show (c :: rest : List Char) = [c] ++ rest from rfl]
      exact RMatch.starCons (by simp) (RMatch.cls (h c (by simp)))
        (ih fun d hd => h d (by simp [hd]))

/-- The language of `X+` (as `X` then `X*`) for a character class `X`:
nonempty strings of class characters. -/
theorem plus_cls_lang (ic : Bool) (p : Char → Bool) (u : List Char) :
    RMatch ic (.cat (.cls p) (.star (.cls p))) u ↔ u ≠ [] ∧ ∀ c ∈ u, p c = true := by
  constructor
  · intro h
    cases h with
    | cat h1 h2 =>
      cases h1 with
      | cls hp =>
        refine ⟨by simp, ?_⟩
        intro c hc
        rcases List.mem_append.mp hc with h | h
        · simp at h
          rw [h]
          exact hp
        · exact (star_cls_lang ic p _).mp h2 c h
  · rintro ⟨hne, h⟩
    cases u with
    | nil => exact absurd rfl hne
    | cons c rest =>
      rw [show (c :: rest : List Char) = [c] ++ rest from rfl]
      exact RMatch.cat (RMatch.cls (h c (by simp)))
        ((star_cls_lang ic p rest).mpr fun d hd => h d (by simp [hd]))

/-- Closures absorb append. -/
theorem star_append (ic : Bool) (r : RegExp) {u v : List Char}
    (h1 : RMatch ic (.star r) u) (h2 : RMatch ic (.star r) v) :
    RMatch ic (.star r) (u ++ v) := by
  have key : ∀ (r0 : RegExp) (w : List Char), RMatch ic r0 w → r0 = .star r →
      RMatch ic (.star r) (w ++ v) := by
    intro r0 w hm
    induction hm with
    | starNil => intro he; simp; exact he ▸ h2
    | starCons hne hb hs ihb ihs =>
      intro he
      injection he with he2
      subst he2
      rw [List.append_assoc]
      exact RMatch.starCons hne hb (ihs rfl)
    | emp => intro he; exact absurd he (by simp)
    | lit hc => intro he; exact absurd he (by simp)
    | cls hc => intro he; exact absurd he (by simp)
    | cat ha hb iha ihb => intro he; exact absurd he (by simp)
    | altL ha iha => intro he; exact absurd he (by simp)
    | altR ha iha => intro he; exact absurd he (by simp)
    | optNone => intro he; exact absurd he (by simp)
    | optSome ha iha => intro he; exact absurd he (by simp)
    | group ha iha => intro he; exact absurd he (by simp)
  exact key _ u h1 rfl

/-- Inversion for concatenation. -/
theorem cat_lang_inv {ic : Bool} {r1 r2 : RegExp} {u : List Char}
    (h : RMatch ic (.cat r1 r2) u) :
    ∃ u1 u2, u = u1 ++ u2 ∧ RMatch ic r1 u1 ∧ RMatch ic r2 u2 := by
  cases h with
  | cat h1 h2 => exact ⟨_, _, rfl, h1, h2⟩

/-- `x/y/z`-style joining: the segments of a multi-segment capture separated
by single `/` characters. -/
def sepJoin : List (List Char) → List Char
  | [] => []
  | q :: qs => q ++ qs.flatMap fun w => '/' :: w

/-- The language of `(?:\/(?:[^\/]+)){k}`: exactly `k` further non-`/` runs,
each preceded by a single `/`. -/
theorem repRE_lang (ic : Bool) : ∀ (k : Nat) (v : List Char),
    RMatch ic (repRE k (.cat slashRE notSlashPlus)) v ↔
      ∃ parts : List (List Char), parts.length = k ∧
        (∀ q ∈ parts, q ≠ [] ∧ ∀ ch ∈ q, ch ≠ '/') ∧
        v = parts.flatMap fun w => '/' :: w := by
  intro k
  induction k with
  | zero =>
    intro v
    constructor
    · intro h
      cases h
      exact ⟨[], rfl, by simp, rfl⟩
    · rintro ⟨parts, hl, _, hv⟩
      rw [List.length_eq_zero] at hl
      subst hl
      simp at hv
      subst hv
      exact RMatch.emp
  | succ k ih =>
    intro v
    constructor
    · intro h
      rcases cat_lang_inv h with ⟨v1, v2, hv12, h1, h2⟩
      rcases cat_lang_inv h1 with ⟨a, b, hab, ha, hb⟩
      rcases (ih _).mp h2 with ⟨parts, hl, hg, hv⟩
      rcases (plus_cls_lang ic _ _).mp hb with ⟨hne, hch⟩
      refine ⟨b :: parts, by simp [hl], ?_, ?_⟩
      · intro q hq
        rcases List.mem_cons.mp hq with h | h
        · subst h
          refine ⟨hne, ?_⟩
          intro ch hc
          simpa using hch ch hc
        · exact hg q h
      · rw [hv12, hab, (slash_lang ic _).mp ha, hv]
        simp
    · rintro ⟨parts, hl, hg, hv⟩
      cases parts with
      | nil => simp at hl
      | cons q qs =>
        have hq := hg q (by simp)
        have hv2 : v = (['/'] ++ q) ++ qs.flatMap fun w => '/' :: w := by
          rw [hv]; simp
        rw [hv2]
        refine RMatch.cat (RMatch.cat ((slash_lang ic _).mpr rfl) ?_) ?_
        · refine (plus_cls_lang ic _ _).mpr ⟨hq.1, ?_⟩
          intro ch hc
          simpa using hq.2 ch hc
        · refine (ih _).mpr ⟨qs, by simpa using hl, fun w hw => hg w (by simp [hw]), rfl⟩

/-- The language of the fixed-multi capture body
`(?:[^\/]+)(?:\/(?:[^\/]+)){k}`: exactly `k + 1` non-`/` runs separated by
single `/` characters. -/
theorem multiFixed_body_lang (ic : Bool) (k : Nat) (u : List Char) :
    RMatch ic (.cat notSlashPlus (repRE k (.cat slashRE notSlashPlus))) u ↔
      ∃ parts : List (List Char), parts.length = k + 1 ∧
        (∀ q ∈ parts, q ≠ [] ∧ ∀ ch ∈ q, ch ≠ '/') ∧
        u = sepJoin parts := by
  constructor
  · intro h
    rcases cat_lang_inv h with ⟨v1, v2, hv12, h1, h2⟩
    rcases (plus_cls_lang ic _ _).mp h1 with ⟨hne, hch⟩
    rcases (repRE_lang ic k _).mp h2 with ⟨parts, hl, hg, hv⟩
    refine ⟨v1 :: parts, by simp [hl], ?_, ?_⟩
    · intro q hq
      rcases List.mem_cons.mp hq with h | h
      · subst h
        refine ⟨hne, ?_⟩
        intro ch hc
        simpa using hch ch hc
      · exact hg q h
    · rw [hv12, hv]
      rfl
  · rintro ⟨parts, hl, hg, hv⟩
    cases parts with
    | nil => simp at hl
    | cons q qs =>
      have hq := hg q (by simp)
      rw [hv, show sepJoin (q :: qs) = q ++ qs.flatMap (fun w => '/' :: w) from rfl]
      refine RMatch.cat ?_ ?_
      · refine (plus_cls_lang ic _ _).mpr ⟨hq.1, ?_⟩
        intro ch hc
        simpa using hq.2 ch hc
      · exact (repRE_lang ic k _).mpr ⟨qs, by simpa using hl, fun w hw => hg w (by simp [hw]), rfl⟩

/-! ## Segment shapes and the fingerprint -/

/-- The shape of one template segment: which `paramRegex` pieces it has with
the name erased, or its literal text. -/
inductive SegShape where
  | prm : Bool → Option Nat → Bool → SegShape
  | str : List Char → SegShape
deriving DecidableEq

def segShape (seg : List Char) : SegShape :=
  match paramMatch seg with
  | some p => .prm p.isMulti p.count p.isOptional
  | none => .str seg

/-- The fingerprint text one segment contributes, as a function of its
shape. -/
def fpOfShape : SegShape → List Char
  | .prm true c _ => if c.getD 0 ≠ 0 then fpRep (c.getD 0) else ['/', '?', '*']
  | .prm false _ _ => ['/', '?']
  | .str s => '/' :: s

def fpShapes (l : List SegShape) : List Char := l.flatMap fpOfShape

theorem genSegment_fp {tso : Bool} {acc acc2 : GenAcc} {seg : List Char}
    (h : genSegment tso acc seg = some acc2) :
    acc2.fp = acc.fp ++ fpOfShape (segShape seg) := by
  unfold genSegment at h
  unfold segShape
  cases hp : paramMatch seg with
  | some p =>
    rw [hp] at h
    dsimp only at h ⊢
    by_cases hc : acc.names.contains (String.mk p.name) = true
    · rw [if_pos hc] at h
      simp at h
    · rw [if_neg hc] at h
      simp only [Option.some.injEq] at h
      rw [← h]
      cases hm : p.isMulti with
      | true =>
        simp only [fpOfShape, hm]
        split <;> simp_all
      | false => simp [fpOfShape, hm]
  | none =>
    rw [hp] at h
    dsimp only at h ⊢
    by_cases he : seg.isEmpty
    · rw [if_pos he] at h
      simp only [Option.some.injEq] at h
      rw [← h]
      have hs : seg = [] := by simpa [List.isEmpty_iff] using he
      simp [hs, fpOfShape]
    · rw [if_neg he] at h
      simp only [Option.some.injEq] at h
      rw [← h]
      simp [fpOfShape]

theorem genSegs_fp {tso : Bool} : ∀ {segs : List (List Char)} {acc acc2 : GenAcc},
    genSegs tso acc segs = some acc2 →
    acc2.fp = acc.fp ++ fpShapes (segs.map segShape) := by
  intro segs
  induction segs with
  | nil =>
    intro acc acc2 h
    simp [genSegs] at h
    rw [← h]
    simp [fpShapes]
  | cons seg rest ih =>
    intro acc acc2 h
    unfold genSegs at h
    cases hg : genSegment tso acc seg with
    | none => rw [hg] at h; simp at h
    | some a2 =>
      rw [hg] at h
      have h2 := ih h
      rw [h2, genSegment_fp hg, List.append_assoc]
      simp [fpShapes]

/-! ## The capture loop: decoded alignment and failure propagation -/

/-- Specification of a successful capture loop: each position pairs the
aligned parameter name with the decoded capture (`none` for an `undefined`
capture), failing when some reached string capture does not decode. -/
def decodePairs : List String → Caps → Option (List (String × Option String))
  | _, [] => some []
  | [], _ :: caps => decodePairs [] caps
  | key :: krest, cap :: caps =>
    match cap with
    | none => (decodePairs krest caps).map fun l => (key, none) :: l
    | some s =>
      match decodeURIComponentF s with
      | none => none
      | some d => (decodePairs krest caps).map fun l => (key, some d) :: l

theorem decodePairs_nil_keys : ∀ caps, decodePairs [] caps = some [] := by
  intro caps
  induction caps with
  | nil => rfl
  | cons cap caps ih => simpa [decodePairs] using ih

theorem matchLoop_spec : ∀ (caps : Caps) (keys : List String) prms arr,
    (matchLoop keys caps prms arr).1 = true →
    ∃ prs, decodePairs keys caps = some prs ∧
      (matchLoop keys caps prms arr).2.1 = prms ++ prs ∧
      (matchLoop keys caps prms arr).2.2 = arr ++ prs.map fun kv => kv.2 := by
  intro caps
  induction caps with
  | nil =>
    intro keys prms arr _
    exact ⟨[], by cases keys <;> rfl, by cases keys <;> simp [matchLoop],
      by cases keys <;> simp [matchLoop]⟩
  | cons cap caps ih =>
    intro keys prms arr h
    cases keys with
    | nil =>
      rcases ih [] prms arr (by simpa [matchLoop] using h) with ⟨prs, hd, h1, h2⟩
      have hd0 : decodePairs [] caps = some [] := decodePairs_nil_keys caps
      rw [hd0] at hd
      have : prs = [] := by simpa using hd.symm
      subst this
      exact ⟨[], decodePairs_nil_keys _, by simpa [matchLoop] using h1,
        by simpa [matchLoop] using h2⟩
    | cons key krest =>
      cases cap with
      | none =>
        rcases ih krest (prms ++ [(key, none)]) (arr ++ [none])
            (by simpa [matchLoop] using h) with ⟨prs, hd, h1, h2⟩
        refine ⟨(key, none) :: prs, by simp [decodePairs, hd], ?_, ?_⟩
        · rw [show matchLoop (key :: krest) (none :: caps) prms arr =
            matchLoop krest caps (prms ++ [(key, none)]) (arr ++ [none]) from rfl]
          rw [h1]
          simp
        · rw [show matchLoop (key :: krest) (none :: caps) prms arr =
            matchLoop krest caps (prms ++ [(key, none)]) (arr ++ [none]) from rfl]
          rw [h2]
          simp
      | some s =>
        cases hdec : decodeURIComponentF s with
        | none =>
          exfalso
          have : (matchLoop (key :: krest) (some s :: caps) prms arr).1 = false := by
            simp [matchLoop, hdec]
          rw [this] at h
          exact Bool.false_ne_true h
        | some d =>
          rcases ih krest (prms ++ [(key, some d)]) (arr ++ [some d])
              (by simpa [matchLoop, hdec] using h) with ⟨prs, hd, h1, h2⟩
          refine ⟨(key, some d) :: prs, by simp [decodePairs, hdec, hd], ?_, ?_⟩
          · rw [show matchLoop (key :: krest) (some s :: caps) prms arr =
              matchLoop krest caps (prms ++ [(key, some d)]) (arr ++ [some d]) from
              by simp [matchLoop, hdec]]
            rw [h1]
            simp
          · rw [show matchLoop (key :: krest) (some s :: caps) prms arr =
              matchLoop krest caps (prms ++ [(key, some d)]) (arr ++ [some d]) from
              by simp [matchLoop, hdec]]
            rw [h2]
            simp

/-- A reached capture that fails to decode makes the loop fail. -/
theorem matchLoop_fail : ∀ (caps : Caps) (keys : List String) prms arr (i : Nat) (s : String),
    i < keys.length → caps[i]? = some (some s) → decodeURIComponentF s = none →
    (matchLoop keys caps prms arr).1 = false := by
  intro caps
  induction caps with
  | nil =>
    intro keys prms arr i s _ hc _
    simp at hc
  | cons cap caps ih =>
    intro keys prms arr i s hk hc hd
    cases keys with
    | nil => simp at hk
    | cons key krest =>
      cases i with
      | zero =>
        simp at hc
        subst hc
        simp [matchLoop, hd]
      | succ j =>
        have hc2 : caps[j]? = some (some s) := by simpa using hc
        have hk2 : j < krest.length := by simpa using hk
        cases cap with
        | none => simpa [matchLoop] using ih krest _ _ j s hk2 hc2 hd
        | some s2 =>
          cases hdec : decodeURIComponentF s2 with
          | none => simp [matchLoop, hdec]
          | some d => simpa [matchLoop, hdec] using ih krest _ _ j s hk2 hc2 hd

/-! ## The template grammar accepted by `validatePathRegex`

The corrected segment grammar: every non-final segment is a nonempty literal
run, a `(name)` parameter or a fixed-count `(name*N)` parameter (braces
omitted here); only the final segment may additionally carry the `?` or the
bare `*` decorator, and a trailing `/` is allowed.  The grammar is stated
inductively and proved to be accepted by the validator regex. -/

inductive LitBody : List Char → Prop where
  | nil : LitBody []
  | chr : ∀ (c : Char) (rest : List Char), isPathLiteralChar c = true → LitBody rest →
      LitBody (c :: rest)
  | pct : ∀ (a b : Char) (rest : List Char), isUpperHex a = true → isUpperHex b = true →
      LitBody rest → LitBody ('%' :: a :: b :: rest)

inductive MidSeg : List Char → Prop where
  | lit : ∀ (u : List Char), u ≠ [] → LitBody u → MidSeg u
  | prm : ∀ (nm : List Char), nm ≠ [] → (∀ c ∈ nm, isWordChar c = true) →
      MidSeg ('\x7b' :: (nm ++ ['\x7d']))
  | prmN : ∀ (nm : List Char) (d : Char) (ds : List Char), nm ≠ [] →
      (∀ c ∈ nm, isWordChar c = true) → isNonZeroDigit d = true →
      (∀ c ∈ ds, Char.isDigit c = true) →
      MidSeg ('\x7b' :: (nm ++ ('*' :: d :: (ds ++ ['\x7d']))))

inductive FinSeg : List Char → Prop where
  | prm : ∀ (nm : List Char), nm ≠ [] → (∀ c ∈ nm, isWordChar c = true) →
      FinSeg ('\x7b' :: (nm ++ ['\x7d']))
  | prmN : ∀ (nm : List Char) (d : Char) (ds : List Char), nm ≠ [] →
      (∀ c ∈ nm, isWordChar c = true) → isNonZeroDigit d = true →
      (∀ c ∈ ds, Char.isDigit c = true) →
      FinSeg ('\x7b' :: (nm ++ ('*' :: d :: (ds ++ ['\x7d']))))
  | orm : ∀ (nm : List Char), nm ≠ [] → (∀ c ∈ nm, isWordChar c = true) →
      FinSeg ('\x7b' :: (nm ++ ['?', '\x7d']))
  | wld : ∀ (nm : List Char), nm ≠ [] → (∀ c ∈ nm, isWordChar c = true) →
      FinSeg ('\x7b' :: (nm ++ ['*', '\x7d']))

inductive TailOk : List Char → Prop where
  | emptyTail : TailOk []
  | slashTail : TailOk ['/']
  | finTail : ∀ (f : List Char), FinSeg f → TailOk ('/' :: f)

inductive TemplOk : List Char → Prop where
  | root : TemplOk ['/']
  | segs : ∀ (mids : List (List Char)) (t : List Char), (∀ m ∈ mids, MidSeg m) →
      TailOk t → TemplOk ((mids.map fun m => '/' :: m).flatten ++ t)

theorem litBody_star {u : List Char} (h : LitBody u) :
    RMatch false (.star litCharRE) u := by
  induction h with
  | nil => exact RMatch.starNil
  | chr c rest hc hrest ih =>
    exact RMatch.starCons (by simp) (RMatch.altL (RMatch.cls hc)) ih
  | pct a b rest ha hb hrest ih =>
    exact RMatch.starCons (by simp)
      (RMatch.altR (RMatch.cat (RMatch.lit (by decide))
        (RMatch.cat (RMatch.cls ha) (RMatch.cls hb)))) ih

theorem litRun_lang {u : List Char} (hne : u ≠ []) (h : LitBody u) :
    RMatch false litRunRE u := by
  cases h with
  | nil => exact absurd rfl hne
  | chr c rest hc hrest =>
    exact RMatch.cat (RMatch.altL (RMatch.cls hc)) (litBody_star hrest)
  | pct a b rest ha hb hrest =>
    exact RMatch.cat
      (RMatch.altR (RMatch.cat (RMatch.lit (by decide))
        (RMatch.cat (RMatch.cls ha) (RMatch.cls hb))))
      (litBody_star hrest)

theorem word_plus {nm : List Char} (hne : nm ≠ []) (hw : ∀ c ∈ nm, isWordChar c = true) :
    RMatch false wordPlusRE nm :=
  (plus_cls_lang false isWordChar nm).mpr ⟨hne, hw⟩

theorem count_lang {d : Char} {ds : List Char} (hd : isNonZeroDigit d = true)
    (hds : ∀ c ∈ ds, Char.isDigit c = true) :
    RMatch false countRE ('*' :: d :: ds) := by
  have h := RMatch.cat (RMatch.lit (by decide : charEq false '*' '*' = true))
    (RMatch.cat (RMatch.cls hd) ((star_cls_lang false Char.isDigit ds).mpr hds))
  simpa using h

theorem midSeg_match {m : List Char} (h : MidSeg m) :
    RMatch false midSegRE ('/' :: m) := by
  have hs : RMatch false (.lit '/') ['/'] := RMatch.lit (by decide)
  cases h with
  | lit u hne hb =>
    exact RMatch.cat hs (RMatch.altL (litRun_lang hne hb))
  | prm nm hne hw =>
    have hbody : RMatch false midParamRE ('\x7b' :: (nm ++ ['\x7d'])) := by
      have h2 := RMatch.cat (RMatch.lit (by decide : charEq false '\x7b' '\x7b' = true))
        (RMatch.cat (word_plus hne hw)
          (RMatch.cat (@RMatch.optNone false countRE)
            (RMatch.lit (by decide : charEq false '\x7d' '\x7d' = true))))
      simpa using h2
    exact RMatch.cat hs (RMatch.altR hbody)
  | prmN nm d ds hne hw hd hds =>
    have hbody : RMatch false midParamRE ('\x7b' :: (nm ++ ('*' :: d :: (ds ++ ['\x7d'])))) := by
      have h2 := RMatch.cat (RMatch.lit (by decide : charEq false '\x7b' '\x7b' = true))
        (RMatch.cat (word_plus hne hw)
          (RMatch.cat (RMatch.optSome (count_lang hd hds))
            (RMatch.lit (by decide : charEq false '\x7d' '\x7d' = true))))
      simpa using h2
    exact RMatch.cat hs (RMatch.altR hbody)

theorem mids_star {mids : List (List Char)} (h : ∀ m ∈ mids, MidSeg m) :
    RMatch false (.star midSegRE) ((mids.map fun m => '/' :: m).flatten) := by
  induction mids with
  | nil => exact RMatch.starNil
  | cons m ms ih =>
    exact RMatch.starCons (by simp) (midSeg_match (h m (by simp)))
      (ih fun w hw => h w (by simp [hw]))

theorem finSeg_match {f : List Char} (h : FinSeg f) :
    RMatch false finalParamRE f := by
  cases h with
  | prm nm hne hw =>
    have h2 := RMatch.cat (RMatch.lit (by decide : charEq false '\x7b' '\x7b' = true))
      (RMatch.cat (word_plus hne hw)
        (RMatch.cat (@RMatch.optNone false (.alt countOptRE (.lit '?')))
          (RMatch.lit (by decide : charEq false '\x7d' '\x7d' = true))))
    simpa using h2
  | prmN nm d ds hne hw hd hds =>
    have hcnt : RMatch false countOptRE ('*' :: d :: ds) := by
      have h2 := RMatch.cat (RMatch.lit (by decide : charEq false '*' '*' = true))
        (RMatch.optSome
          (RMatch.cat (RMatch.cls hd) ((star_cls_lang false Char.isDigit ds).mpr hds)))
      simpa using h2
    have h2 := RMatch.cat (RMatch.lit (by decide : charEq false '\x7b' '\x7b' = true))
      (RMatch.cat (word_plus hne hw)
        (RMatch.cat (RMatch.optSome (@RMatch.altL false countOptRE (.lit '?') _ hcnt))
          (RMatch.lit (by decide : charEq false '\x7d' '\x7d' = true))))
    simpa using h2
  | orm nm hne hw =>
    have h2 := RMatch.cat (RMatch.lit (by decide : charEq false '\x7b' '\x7b' = true))
      (RMatch.cat (word_plus hne hw)
        (RMatch.cat (RMatch.optSome
            (@RMatch.altR false countOptRE (.lit '?') ['?']
              (RMatch.lit (by decide : charEq false '?' '?' = true))))
          (RMatch.lit (by decide : charEq false '\x7d' '\x7d' = true))))
    simpa using h2
  | wld nm hne hw =>
    have hcnt : RMatch false countOptRE ['*'] := by
      have h2 := RMatch.cat (RMatch.lit (by decide : charEq false '*' '*' = true))
        (@RMatch.optNone false (.cat (.cls isNonZeroDigit) (.star (.cls Char.isDigit))))
      simpa using h2
    have h2 := RMatch.cat (RMatch.lit (by decide : charEq false '\x7b' '\x7b' = true))
      (RMatch.cat (word_plus hne hw)
        (RMatch.cat (RMatch.optSome (@RMatch.altL false countOptRE (.lit '?') _ hcnt))
          (RMatch.lit (by decide : charEq false '\x7d' '\x7d' = true))))
    simpa using h2

theorem tail_match {t : List Char} (h : TailOk t) : RMatch false tailRE t := by
  cases h with
  | emptyTail => exact RMatch.optNone
  | slashTail =>
    have h2 := RMatch.cat (RMatch.lit (by decide : charEq false '/' '/' = true))
      (@RMatch.optNone false finalParamRE)
    exact RMatch.optSome (by simpa using h2)
  | finTail f hf =>
    have h2 := RMatch.cat (RMatch.lit (by decide : charEq false '/' '/' = true))
      (RMatch.optSome (finSeg_match hf))
    exact RMatch.optSome (by simpa using h2)

theorem templOk_accepted {l : List Char} (h : TemplOk l) :
    RMatch false validatePathRE l := by
  cases h with
  | root => exact RMatch.altL (RMatch.lit (by decide))
  | segs mids t hm ht =>
    exact RMatch.altR (RMatch.cat (mids_star hm) (tail_match ht))

/-! ## Claim theorems -/

/-- A concrete compiled route shared by witnesses: `/user/\x7bid\x7d` under a
case-sensitive, trailing-slash-sensitive router. -/
def userIdRoute : CompiledRoute :=
  (generateRegex "/user/\x7bid\x7d" ⟨true, true⟩).getD ⟨[], false, [], ""⟩

/-- C10: with `trailingSlashSensitive = false`, the root template `/`
compiles to `^\/?$`, so `test` accepts both the empty path and `/`. -/
theorem claim10_root_empty_path :
    (generateRegex "/" ⟨true, false⟩).map (fun c => routeTest c "") = some true ∧
    (generateRegex "/" ⟨true, false⟩).map (fun c => routeTest c "/") = some true := by
  constructor
  · decide
  · decide

/-- C4 (code bug): for the template `/\x7b2\x7d/\x7b1\x7d` the produced
parameter list is `["1", "2"]` — `Object.keys` reorders the digit-only names
numerically instead of keeping declaration order — and matching `/a/b`
consequently binds `1 ↦ "a"` and `2 ↦ "b"`, the opposite of the
declaration-order alignment. -/
theorem claim4_digit_names_reordered :
    (generateRegex "/\x7b2\x7d/\x7b1\x7d" ⟨true, true⟩).map (fun c => c.params) =
      some ["1", "2"] ∧
    (generateRegex "/\x7b2\x7d/\x7b1\x7d" ⟨true, true⟩).map
        (fun c => (routeMatch c ⟨"/a/b", none, none⟩).2.params) =
      some (some [("1", some "a"), ("2", some "b")]) := by
  constructor
  · decide
  · decide

/-- C2 (code bug): matching `/\x7ba\x7d/\x7bb\x7d` against `/x/%E0` fails
(the second capture does not percent-decode) yet leaves the already decoded
first capture in `request.params` and `request._paramsArray` — a partial
result survives the failure outcome. -/
theorem claim2_partial_result_on_decode_failure :
    (generateRegex "/\x7ba\x7d/\x7bb\x7d" ⟨true, true⟩).map
        (fun c => routeMatch c ⟨"/x/%E0", none, none⟩) =
      some (false, ⟨"/x/%E0", some [("a", some "x")], some [some "x"]⟩) := by
  decide

/-- C1 counterexample: for `/user/\x7bid?\x7d` compiled with
`trailingSlashSensitive = true`, the path `/user/` — a bare trailing slash
standing in for the absent parameter — is accepted, contradicting the claim
that only the full fragment is. -/
theorem claim1_counterexample :
    (generateRegex "/user/\x7bid?\x7d" ⟨true, true⟩).map (fun c => routeTest c "/user/") =
      some true := by
  decide

/-- C9 counterexample: for `/user/\x7bid?\x7d` with the trailing slash not
significant, matching `/user` succeeds but maps `id` to the `undefined`
capture (`none`), not to a decoded string value, and pushes that `undefined`
onto the positional array. -/
theorem claim9_counterexample :
    (generateRegex "/user/\x7bid?\x7d" ⟨true, false⟩).map
        (fun c => routeMatch c ⟨"/user", none, none⟩) =
      some (true, ⟨"/user", some [("id", none)], some [none]⟩) := by
  decide

/-- C3 counterexample: the template `/\x7ba?\x7d/b` — an optional parameter
in a non-final segment — is rejected by `validatePathRegex`, although it
conforms to the claimed segment grammar. -/
theorem claim3_counterexample : validPath "/\x7ba?\x7d/b" = false := by
  decide

/-- C1 amended: when `trailingSlashSensitive = true` and absence of the
parameter unit is permitted (optional `?`, or unbounded multi), the compiled
unit is `(?:(?:\/)|(?:segmentRX))` — mandatory, but matching either a bare
trailing `/` or the full fragment; hence for `/user/\x7bid?\x7d` the paths
`/user/` and `/user/42` are accepted while the bare `/user` is rejected. -/
theorem claim1_amended :
    (∀ (p : ParamPieces) (acc : GenAcc) (seg : List Char),
      paramMatch seg = some p →
      (p.isOptional = true ∨ (p.isMulti = true ∧ p.count.getD 0 = 0)) →
      acc.names.contains (String.mk p.name) = false →
      ∃ acc2, genSegment false acc seg = some acc2 ∧
        acc2.frags = acc.frags ++
          [.alt slashRE (paramSegmentRX p.isMulti (p.count.getD 0) acc.names.length)]) ∧
    (∀ (ic : Bool) (r : RegExp) (u : List Char),
      RMatch ic (.alt slashRE r) u ↔ (u = ['/'] ∨ RMatch ic r u)) ∧
    ((generateRegex "/user/\x7bid?\x7d" ⟨true, true⟩).map (fun c => routeTest c "/user/") =
        some true ∧
      (generateRegex "/user/\x7bid?\x7d" ⟨true, true⟩).map (fun c => routeTest c "/user") =
        some false ∧
      (generateRegex "/user/\x7bid?\x7d" ⟨true, true⟩).map (fun c => routeTest c "/user/42") =
        some true) := by
  refine ⟨?_, ?_, by decide, by decide, by decide⟩
  · intro p acc seg hp hopt hc
    unfold genSegment
    rw [hp]
    dsimp only
    rw [if_neg (fun hcc => by rw [hcc] at hc; simp at hc)]
    have hcond : (p.isOptional || (p.isMulti && decide (p.count.getD 0 = 0))) = true := by
      rcases hopt with h | ⟨h1, h2⟩
      · simp [h]
      · simp [h1, h2]
    rw [if_pos hcond]
    exact ⟨_, rfl, by simp⟩
  · intro ic r u
    constructor
    · intro h
      cases h with
      | altL h1 => exact Or.inl ((slash_lang ic u).mp h1)
      | altR h2 => exact Or.inr h2
    · intro h
      rcases h with h | h
      · exact RMatch.altL ((slash_lang ic u).mpr h)
      · exact RMatch.altR h

/-- C1 amended, witnessed at the optional single parameter `\x7bid?\x7d`
under an empty accumulator. -/
theorem claim1_witness :
    ∃ acc2, genSegment false ⟨[], [], []⟩ ['\x7b', 'i', 'd', '?', '\x7d'] = some acc2 ∧
      acc2.frags = GenAcc.frags ⟨[], [], []⟩ ++
        [.alt slashRE (paramSegmentRX false 0 0)] :=
  claim1_amended.1 ⟨['i', 'd'], false, none, true⟩ ⟨[], [], []⟩
    ['\x7b', 'i', 'd', '?', '\x7d'] (by decide) (Or.inl rfl) (by decide)

/-- C3 amended: a template conforming to the corrected grammar — non-final
segments are literal runs, `\x7bname\x7d` or `\x7bname*N\x7d`; the final
segment may additionally be `\x7bname?\x7d` or `\x7bname*\x7d`, and a bare
trailing `/` is allowed — is accepted by the validator. -/
theorem claim3_amended (s : String) (h : TemplOk s.data) : validPath s = true :=
  (reAccept_iff false validatePathRE s.data).mpr (templOk_accepted h)

/-- C3 amended, witnessed at `/a/\x7bid?\x7d`. -/
theorem claim3_witness : validPath "/a/\x7bid?\x7d" = true := by
  apply claim3_amended
  have h2 := TemplOk.segs [['a']] ('/' :: '\x7b' :: 'i' :: 'd' :: '?' :: '\x7d' :: [])
    (fun m hm => by
      simp at hm
      subst hm
      exact MidSeg.lit ['a'] (by simp) (LitBody.chr 'a' [] (by decide) LitBody.nil))
    (TailOk.finTail _ (FinSeg.orm ['i', 'd'] (by simp) (by decide)))
  have he : ((([['a']]).map fun m => '/' :: m).flatten ++
      ('/' :: '\x7b' :: 'i' :: 'd' :: '?' :: '\x7d' :: [])) = "/a/\x7bid?\x7d".data := by
    decide
  rw [he] at h2
  exact h2

/-- Evaluation of `match` when the structural test fails. -/
theorem routeMatch_none {c : CompiledRoute} {req : Request}
    (hex : routeExec c req.path = none) : routeMatch c req = (false, req) := by
  unfold routeMatch
  rw [hex]

/-- Evaluation of `match` when the structural test succeeds. -/
theorem routeMatch_some {c : CompiledRoute} {req : Request} {caps : Caps}
    (hex : routeExec c req.path = some caps) :
    routeMatch c req =
      if c.params.length > 0 then
        ((matchLoop c.params caps [] []).1,
          ⟨req.path, some (matchLoop c.params caps [] []).2.1,
            some (matchLoop c.params caps [] []).2.2⟩)
      else (true, ⟨req.path, some [], some []⟩) := by
  unfold routeMatch
  rw [hex]

/-- C5: whenever the pattern structurally matches (exec succeeds) but some
reached capture fails to percent-decode, `match` returns false rather than
raising. -/
theorem claim5_decode_failure_no_match (c : CompiledRoute) (req : Request) (caps : Caps)
    (i : Nat) (s : String) (hex : routeExec c req.path = some caps)
    (hi : i < c.params.length) (hc : caps[i]? = some (some s))
    (hd : decodeURIComponentF s = none) :
    (routeMatch c req).1 = false := by
  rw [routeMatch_some hex]
  have hp : c.params.length > 0 := by omega
  rw [if_pos hp]
  exact matchLoop_fail caps c.params [] [] i s hi hc hd

/-- C5, witnessed: `/user/\x7bid\x7d` against `/user/%E0%A4%A` (a truncated
percent escape) structurally matches and `match` returns false. -/
theorem claim5_witness :
    (routeMatch userIdRoute ⟨"/user/%E0%A4%A", none, none⟩).1 = false :=
  claim5_decode_failure_no_match userIdRoute ⟨"/user/%E0%A4%A", none, none⟩
    [some "%E0%A4%A"] 0 "%E0%A4%A" (by decide) (by decide) (by decide) (by decide)

/-- C8: `test` succeeds exactly on the language of the compiled pattern —
the same structural test `match` performs first, with no decoding — and a
successful `match` implies a successful `test` on the same path. -/
theorem claim8_test_refines_match (c : CompiledRoute) (p : String) (req : Request) :
    (routeTest c p = true ↔ RMatch c.ignoreCase (compiledRE c) p.data) ∧
    ((routeMatch c req).1 = true → routeTest c req.path = true) := by
  refine ⟨routeTest_iff c p, ?_⟩
  intro h
  cases hex : routeExec c req.path with
  | none => rw [routeMatch_none hex] at h; simp at h
  | some caps =>
    unfold routeTest
    rw [hex]
    rfl

/-- C8, witnessed at `/user/\x7bid\x7d` and the matching path `/user/42`. -/
theorem claim8_witness : routeTest userIdRoute "/user/42" = true :=
  (claim8_test_refines_match userIdRoute "/user/42" ⟨"/user/42", none, none⟩).2 (by decide)

/-- C9 amended: when `match` succeeds, `request.params` pairs each parameter
name with the decode of its capture — the decoded string when the capture is
present, the `undefined` value when an optional or unbounded parameter was
omitted — and `request._paramsArray` holds exactly those values in order. -/
theorem claim9_amended (c : CompiledRoute) (req : Request)
    (h : (routeMatch c req).1 = true) :
    ∃ caps prs, routeExec c req.path = some caps ∧
      decodePairs c.params caps = some prs ∧
      (routeMatch c req).2.params = some prs ∧
      (routeMatch c req).2.paramsArray = some (prs.map fun kv => kv.2) := by
  cases hex : routeExec c req.path with
  | none => rw [routeMatch_none hex] at h; simp at h
  | some caps =>
    rw [routeMatch_some hex] at h ⊢
    by_cases hp : c.params.length > 0
    · rw [if_pos hp] at h ⊢
      rcases matchLoop_spec caps c.params [] [] (by simpa using h) with ⟨prs, hd, h1, h2⟩
      exact ⟨caps, prs, rfl, hd, by simp [h1], by simp [h2]⟩
    · rw [if_neg hp] at h ⊢
      have hpl : c.params = [] := List.length_eq_zero.mp (by omega)
      refine ⟨caps, [], rfl, ?_, by simp, by simp⟩
      rw [hpl]
      exact decodePairs_nil_keys caps

/-- C9 amended, witnessed at `/user/\x7bid\x7d` matching `/user/42`. -/
theorem claim9_witness :
    ∃ caps prs, routeExec userIdRoute "/user/42" = some caps ∧
      decodePairs userIdRoute.params caps = some prs ∧
      (routeMatch userIdRoute ⟨"/user/42", none, none⟩).2.params = some prs ∧
      (routeMatch userIdRoute ⟨"/user/42", none, none⟩).2.paramsArray =
        some (prs.map fun kv => kv.2) :=
  claim9_amended userIdRoute ⟨"/user/42", none, none⟩ (by decide)

/-- C6: the fingerprint is a function of the template's segment shapes under
a fixed configuration — templates with shape-equal segment lists get equal
fingerprints regardless of parameter names — while templates differing in a
literal segment (`/user/\x7bid\x7d` vs `/account/\x7bid\x7d`) get different
fingerprints. -/
theorem claim6_fingerprint_shape :
    (∀ (t1 t2 : String) (cfg : RouterSettings) (c1 c2 : CompiledRoute),
      ((splitSlash t1.data).drop 1).map segShape = ((splitSlash t2.data).drop 1).map segShape →
      generateRegex t1 cfg = some c1 → generateRegex t2 cfg = some c2 →
      c1.fingerprint = c2.fingerprint) ∧
    (generateRegex "/user/\x7bid\x7d" ⟨true, true⟩).map (fun c => c.fingerprint) ≠
      (generateRegex "/account/\x7bid\x7d" ⟨true, true⟩).map fun c => c.fingerprint := by
  constructor
  · intro t1 t2 cfg c1 c2 hsh h1 h2
    cases hg1 : genSegs (!cfg.isTrailingSlashSensitive) ⟨[], [], []⟩
        ((splitSlash t1.data).drop 1) with
    | none => simp only [generateRegex, hg1] at h1; exact Option.noConfusion h1
    | some a1 =>
      cases hg2 : genSegs (!cfg.isTrailingSlashSensitive) ⟨[], [], []⟩
          ((splitSlash t2.data).drop 1) with
      | none => simp only [generateRegex, hg2] at h2; exact Option.noConfusion h2
      | some a2 =>
        simp only [generateRegex, hg1] at h1
        simp only [generateRegex, hg2] at h2
        have e1 := genSegs_fp hg1
        have e2 := genSegs_fp hg2
        rw [hsh] at e1
        have efp : a1.fp = a2.fp := by rw [e1, e2]
        by_cases hcs : cfg.isCaseSensitive = true
        · rw [if_pos hcs] at h1 h2
          simp only [Option.some.injEq] at h1 h2
          rw [← h1, ← h2, efp]
        · rw [if_neg hcs] at h1 h2
          simp only [Option.some.injEq] at h1 h2
          rw [← h1, ← h2, efp]
  · decide

/-- C6, witnessed: `/user/\x7bid\x7d` and `/user/\x7bname\x7d` have equal
segment shapes, hence equal fingerprints. -/
theorem claim6_witness :
    (generateRegex "/user/\x7bid\x7d" ⟨true, true⟩).map (fun c => c.fingerprint) =
      (generateRegex "/user/\x7bname\x7d" ⟨true, true⟩).map fun c => c.fingerprint := by
  obtain ⟨c1, h1⟩ : ∃ c, generateRegex "/user/\x7bid\x7d" ⟨true, true⟩ = some c := ⟨_, rfl⟩
  obtain ⟨c2, h2⟩ : ∃ c, generateRegex "/user/\x7bname\x7d" ⟨true, true⟩ = some c := ⟨_, rfl⟩
  rw [h1, h2]
  exact congrArg some (claim6_fingerprint_shape.1 _ _ _ _ _ (by decide) h1 h2)

/-- C7: the compiled fragment of a fixed-count multi parameter
`\x7bname*N\x7d` matches exactly `N` nonempty non-`/` runs separated by
single `/` characters (after its leading separator); concretely `/a/\x7bp*2\x7d`
matches `/a/x/y` capturing `p = "x/y"` and matches neither `/a/x` nor
`/a/x/y/z`. -/
theorem claim7_multi_fixed :
    (∀ (n gi : Nat), 1 ≤ n → ∀ (ic : Bool) (u : List Char),
      RMatch ic (paramSegmentRX true n gi) u ↔
        ∃ parts : List (List Char), parts.length = n ∧
          (∀ q ∈ parts, q ≠ [] ∧ ∀ ch ∈ q, ch ≠ '/') ∧
          u = '/' :: sepJoin parts) ∧
    ((generateRegex "/a/\x7bp*2\x7d" ⟨true, true⟩).map
        (fun c => (routeMatch c ⟨"/a/x/y", none, none⟩).1) = some true ∧
      (generateRegex "/a/\x7bp*2\x7d" ⟨true, true⟩).map
        (fun c => (routeMatch c ⟨"/a/x/y", none, none⟩).2.params) =
        some (some [("p", some "x/y")]) ∧
      (generateRegex "/a/\x7bp*2\x7d" ⟨true, true⟩).map (fun c => routeTest c "/a/x") =
        some false ∧
      (generateRegex "/a/\x7bp*2\x7d" ⟨true, true⟩).map (fun c => routeTest c "/a/x/y/z") =
        some false) := by
  refine ⟨?_, by decide, by decide, by decide, by decide⟩
  intro n gi hn ic u
  have hnz : n ≠ 0 := by omega
  unfold paramSegmentRX
  rw [if_pos rfl, if_pos hnz]
  constructor
  · intro h
    rcases cat_lang_inv h with ⟨u1, u2, hu, hs, hgrp⟩
    have hu1 : u1 = ['/'] := (slash_lang ic u1).mp hs
    have hbody : RMatch ic (.cat notSlashPlus (repRE (n - 1) (.cat slashRE notSlashPlus))) u2 := by
      cases hgrp with
      | group hg => exact hg
    rcases (multiFixed_body_lang ic (n - 1) u2).mp hbody with ⟨parts, hl, hg, hv⟩
    refine ⟨parts, by omega, hg, ?_⟩
    rw [hu, hu1, hv]
    rfl
  · rintro ⟨parts, hl, hg, hu⟩
    rw [hu, show ('/' :: sepJoin parts : List Char) = ['/'] ++ sepJoin parts from rfl]
    refine RMatch.cat ((slash_lang ic _).mpr rfl) (RMatch.group ?_)
    exact (multiFixed_body_lang ic (n - 1) _).mpr ⟨parts, by omega, hg, rfl⟩

/-- C7, witnessed: the fragment for `n = 2` matches `/x/y`. -/
theorem claim7_witness :
    RMatch false (paramSegmentRX true 2 0) ['/', 'x', '/', 'y'] :=
  (claim7_multi_fixed.1 2 0 (by omega) false ['/', 'x', '/', 'y']).mpr
    ⟨[['x'], ['y']], rfl, by decide, rfl⟩
